import Mathlib

/-!
Verification of the comparison-GA repository (chromosome.py, representation.py,
optimizationGA.py) against its natural-language specification.

Modelling conventions:
* Python bitstrings ("0110") are `List Bool`.
* Python floats are modelled as exact rationals `ℚ`.
* A Python `Chromosome` object is a pair of an object identity `oid : ℕ`
  (modelling `id(obj)`) and its `_vec` bitstring.  The class defines neither
  `__eq__` nor `__hash__`, so `==`, `!=`, `in` and dict hashing on chromosomes
  follow object identity; `pyEq`/`pyNe` below model that default.
* Randomness (random.uniform, random.randint, numpy.random.choice) is
  modelled by explicit oracle inputs carrying the drawn values.
* Python dicts are association lists with insert-or-update-in-place
  semantics (`updInsert`), preserving insertion order as dict iteration does.
-/

namespace CompGA

/-- A Python `Chromosome` object: `oid` models the object's identity
(`id(obj)`), `vec` models the `_vec` bitstring. -/
structure Chromosome where
  oid : ℕ
  vec : List Bool
  deriving DecidableEq, Repr

instance : Inhabited Chromosome := ⟨⟨0, []⟩⟩

/-- Python `==` on chromosomes: the class defines no `__eq__`, so CPython
falls back to object identity. -/
def pyEq (a b : Chromosome) : Prop := a.oid = b.oid

instance : DecidablePred fun p : Chromosome × Chromosome => pyEq p.1 p.2 :=
  fun p => inferInstanceAs (Decidable (p.1.oid = p.2.oid))

instance (a b : Chromosome) : Decidable (pyEq a b) :=
  inferInstanceAs (Decidable (a.oid = b.oid))

/-- Python `!=` on chromosomes (identity inequality). -/
def pyNe (a b : Chromosome) : Bool := decide (a.oid ≠ b.oid)

/-- The bitstring arithmetic of `Chromosome.crossover`:
`child1 = p1[:point] + p2[point:]`, `child2 = p2[:point] + p1[point:]`. -/
def crossoverVec (p1 p2 : List Bool) (point : ℕ) : List Bool × List Bool :=
  (p1.take point ++ p2.drop point, p2.take point ++ p1.drop point)

/-- The bit loop of `Chromosome.mutate`: bit `i` is flipped when the draw
`random.uniform(0,1)` for that position is `≤ pm`.  `draws` supplies the
drawn values, `i` the position of the list head. -/
def mutVec (pm : ℚ) (draws : ℕ → ℚ) : ℕ → List Bool → List Bool
  | _, [] => []
  | i, b :: rest => (if draws i ≤ pm then !b else b) :: mutVec pm draws (i + 1) rest

/-! ### Python dict model (association lists, insertion order preserved) -/

/-- Python `d[k] = v`: update the value in place when `k` is already a key
(keeping its position), append otherwise. -/
def updInsert {α β : Type} [DecidableEq α] (d : List (α × β)) (k : α) (v : β) :
    List (α × β) :=
  match d with
  | [] => [(k, v)]
  | (k', v') :: rest =>
      if k' = k then (k', v) :: rest else (k', v') :: updInsert rest k v

/-- Python `d[k]` as an option (`none` models `KeyError`). -/
def lookupRep {α β : Type} [DecidableEq α] (d : List (α × β)) (k : α) : Option β :=
  (d.find? fun p => decide (p.1 = k)).map (·.2)

/-- Build a dict from a list of (key, value) bindings in order. -/
def mkDict {α β : Type} [DecidableEq α] (l : List (α × β)) : List (α × β) :=
  l.foldl (fun d p => updInsert d p.1 p.2) []

/-! ### representation.py -/

/-- The `(start, end, step)` interval 3-tuple; `end` is renamed `stop`
(reserved word). -/
structure Interval where
  start : ℚ
  stop : ℚ
  step : ℚ
  deriving DecidableEq, Repr

/-- `isValidInterval`: `(start < end and step > 0) or (start > end and step < 0)`
(the arity check on the Python tuple is vacuous for a 3-field structure). -/
def isValidInterval (iv : Interval) : Prop :=
  (iv.start < iv.stop ∧ 0 < iv.step) ∨ (iv.stop < iv.start ∧ iv.step < 0)

instance (iv : Interval) : Decidable (isValidInterval iv) := by
  unfold isValidInterval; infer_instance

/-- Python `int(q)`: truncation toward zero. -/
def pyInt (q : ℚ) : ℤ := if 0 ≤ q then ⌊q⌋ else -⌊-q⌋

/-- Python `round(q)`: banker's rounding (round half to even). -/
def pyRound (q : ℚ) : ℤ :=
  if q - ⌊q⌋ < 1/2 then ⌊q⌋
  else if 1/2 < q - ⌊q⌋ then ⌊q⌋ + 1
  else if ⌊q⌋ % 2 = 0 then ⌊q⌋ else ⌊q⌋ + 1

/-- `round(abs((end - start)/step) + 1)`: the number of discretized
interval points checked by the `initializeEncodings` assert. -/
def numPoints (iv : Interval) : ℤ :=
  pyRound (|(iv.stop - iv.start) / iv.step| + 1)

/-- The dict-building loop of `initializeEncodings`:
`for binstr in encoding: rep[binstr] = j*step; j += 1`. -/
def mkRep {α : Type} [DecidableEq α] (step : ℚ) :
    List α → ℤ → List (α × ℚ) → List (α × ℚ)
  | [], _, d => d
  | s :: rest, j, d => mkRep step rest (j + 1) (updInsert d s ((j : ℚ) * step))

/-- The two failure modes of `initializeEncodings`: the `ValueError` for a
bad interval and the `AssertionError` for an encoding/interval size
mismatch. -/
inductive EncErr where
  | invalidInterval
  | sizeMismatch
  deriving DecidableEq, Repr

/-- `initializeEncodings(encoding, interval)`: validate the interval, check
the encoding cardinality against the number of interval points, then map
the bitstrings in order to `j*step, (j+1)*step, …` with `j = int(start/step)`. -/
def initializeEncodings {α : Type} [DecidableEq α] (encoding : List α)
    (iv : Interval) : Except EncErr (List (α × ℚ)) :=
  if isValidInterval iv then
    if (encoding.length : ℤ) = numPoints iv then
      .ok (mkRep iv.step encoding (pyInt (iv.start / iv.step)) [])
    else .error .sizeMismatch
  else .error .invalidInterval

/-- `Representation.to_num`: dict lookup, `none` modelling the `KeyError`. -/
def to_num {α : Type} [DecidableEq α] (rep : List (α × ℚ)) (s : α) : Option ℚ :=
  lookupRep rep s

/-- `Representation.__init__`'s inverse dict
`{v: k for k, v in repFn.items()}`. -/
def invRep {α : Type} [DecidableEq α] (rep : List (α × ℚ)) : List (ℚ × α) :=
  mkDict (rep.map fun p => (p.2, p.1))

/-- `Representation.to_bitstr`: lookup in the inverse dict. -/
def to_bitstr {α : Type} [DecidableEq α] (rep : List (α × ℚ)) (x : ℚ) : Option α :=
  lookupRep (invRep rep) x

/-- Big-endian `b`-bit binary writing of `n`, as built by
`'0'*(b-len(binstr)) + bin(i)[2:]`. -/
def natToBits : ℕ → ℕ → List Bool
  | 0, _ => []
  | b + 1, n => natToBits b (n / 2) ++ [decide (n % 2 = 1)]

/-- Value of a big-endian bit list (inverse of `natToBits`, used only in
proofs). -/
def bitsToNat (l : List Bool) : ℕ :=
  l.foldl (fun acc bit => 2 * acc + if bit then 1 else 0) 0

/-- The ascending list of all `b`-bit bitstrings built by
`generateBinaryRepresentation`'s loop `for i in range(0, 2**b)`. -/
def binaryCode (b : ℕ) : List (List Bool) :=
  (List.range (2 ^ b)).map (natToBits b)

/-- `generateBinaryRepresentation(interval, b)` (with the bit width `b`
supplied): the encoding table of the ascending binary code. -/
def generateBinaryRepresentation (iv : Interval) (b : ℕ) :
    Except EncErr (List (List Bool × ℚ)) :=
  initializeEncodings (binaryCode b) iv

/-! ### tournament_selection (chromosome.py) -/

/-- The branch test `key(david, goliath) == david` of the tournament scan.
For `key = min`, `min(david, goliath)` equals the value `david` iff
`david ≤ goliath`; for `key = max` iff `goliath ≤ david`.  `isMin = true`
models `key = min`. -/
def selCond (isMin : Bool) (david goliath : ℚ) : Bool :=
  if isMin then decide (david ≤ goliath) else decide (goliath ≤ david)

/-- The sampling loop of `tournament_selection`: `k` times, draw an index
into the shrinking `popcopy`, move that element into `ksubset`.  `idxs i`
models the `random.randint(0, len(popcopy)-1)` draw of iteration `i`
(reduced mod the current length).  Returns (ksubset, remaining popcopy). -/
def sampleAux (idxs : ℕ → ℕ) : ℕ → ℕ → List Chromosome →
    List Chromosome × List Chromosome
  | _, 0, popcopy => ([], popcopy)
  | i, k + 1, popcopy =>
    let ind := idxs i % popcopy.length
    let chrom := popcopy.getD ind default
    let (s, r) := sampleAux idxs (i + 1) k (popcopy.eraseIdx ind)
    (chrom :: s, r)

/-- The `ksubset` sampled by `tournament_selection`. -/
def sampleK (pop : List Chromosome) (k : ℕ) (idxs : ℕ → ℕ) : List Chromosome :=
  (sampleAux idxs 0 k pop).1

/-- The scan `for chrom in ksubset: if key(fmap[chrom], fmap[most_fit]) ==
fmap[chrom]: most_fit = chrom`. -/
def scanBest (isMin : Bool) (fmap : Chromosome → ℚ) :
    List Chromosome → Chromosome → Chromosome
  | [], m => m
  | c :: rest, m =>
      scanBest isMin fmap rest (if selCond isMin (fmap c) (fmap m) then c else m)

/-- `tournament_selection(pop, k, fmap, key)`; `none` models the
`"invalid tournament size"` assertion failure.  `fmap` abstracts the
fitness dict (whose keys cover the population). -/
def tournament_selection (pop : List Chromosome) (k : ℕ)
    (fmap : Chromosome → ℚ) (isMin : Bool) (idxs : ℕ → ℕ) : Option Chromosome :=
  if 0 < k ∧ k ≤ pop.length then
    match sampleK pop k idxs with
    | [] => none
    | m :: rest => some (scanBest isMin fmap (m :: rest) m)
  else none

/-! ### The GA_SEARCH evolution loop (optimizationGA.py) -/

/-- Worker for `dedupOid`: drops chromosomes whose identity is in `seen`
or occurred earlier in the list. -/
def dedupOidAux (seen : List ℕ) : List Chromosome → List Chromosome
  | [] => []
  | c :: rest =>
      if c.oid ∈ seen then dedupOidAux seen rest
      else c :: dedupOidAux (c.oid :: seen) rest

/-- Iteration order of a Python dict keyed by chromosome objects: first
occurrence of each identity, in insertion order. -/
def dedupOid (l : List Chromosome) : List Chromosome := dedupOidAux [] l

/-- The strict comparison by which Python `min(iterable, key=…)` /
`max(iterable, key=…)` replaces its running best (ties keep the earlier
element). -/
def better (isMin : Bool) (a b : ℚ) : Bool :=
  if isMin then decide (a < b) else decide (b < a)

/-- The scan of Python `min`/`max` with a key function over the remaining
elements, starting from a current best `m`. -/
def bestIn (fit : List Bool → ℚ) (isMin : Bool) :
    List Chromosome → Chromosome → Chromosome
  | [], m => m
  | c :: rest, m =>
      bestIn fit isMin rest (if better isMin (fit c.vec) (fit m.vec) then c else m)

/-- `best_chrom = key(FITNESS_MAP, key=FITNESS_MAP.get)`: the first
fittest key of the fitness dict, whose keys iterate as `dedupOid pop` and
whose value at a chromosome is `fit` of its bitstring
(`chrom.eval_fitness(fn)`). -/
def bestChrom (fit : List Bool → ℚ) (isMin : Bool) (pop : List Chromosome) :
    Chromosome :=
  match dedupOid pop with
  | [] => default
  | c :: rest => bestIn fit isMin rest c

/-- `FITNESS_MAP = {chrom: chrom.eval_fitness(fn) for chrom in POP}`:
identity-keyed dict; each distinct object contributes one entry, value
`fit` of its bitstring.  (For one object inserted twice the first and last
value coincide, both being `fit c.vec`.) -/
def mkFitMap (fit : List Bool → ℚ) (pop : List Chromosome) : List (ℕ × ℚ) :=
  (dedupOid pop).map fun c => (c.oid, fit c.vec)

/-- The configuration arguments of `GA_SEARCH` relevant to the loop. -/
structure GAConfig where
  mutrate : ℚ
  crossrate : ℚ
  popsize : ℕ

/-- `EVAL_LIMIT = 5000`. -/
def EVAL_LIMIT : ℕ := 5000

/-- The random draws consumed by one reproduction iteration: the two
`wheel_selection` outcomes (as indices into `POP`; the fitness-proportional
distribution itself is not modelled), the `random.uniform(0,1)` gates for
crossover and the two mutations, the `random.randint(0, len(p1))` cut
point, and the per-bit mutation draws. -/
structure Oracle where
  sel1 : ℕ
  sel2 : ℕ
  uCross : ℚ
  cut : ℕ
  uMut1 : ℚ
  uMut2 : ℚ
  draws1 : ℕ → ℚ
  draws2 : ℕ → ℚ

/-- Selecting a population member by a drawn index. -/
def pick (pop : List Chromosome) (n : ℕ) : Chromosome :=
  pop.getD (n % pop.length) default

/-- Result of one reproduction iteration: the two children, the next fresh
object identity, and the `EVALS` increment. -/
structure PairOut where
  c1 : Chromosome
  c2 : Chromosome
  nid : ℕ
  d : ℕ

/-- One iteration of the `for i in range(popsize//2)` reproduction loop:
select two parents, crossover with probability `crossrate`, gate each
mutation with probability `mutrate`, and increment `EVALS` by
`int(child != parent1 and child != parent2)` per child (Python `!=` being
object identity here).  Objects created by `crossover`/`mutate` receive
fresh identities from the counter `nid`. -/
def pairStep (cfg : GAConfig) (o : Oracle) (pop : List Chromosome) (nid : ℕ) :
    PairOut :=
  let parent1 := pick pop o.sel1
  let parent2 := pick pop o.sel2
  let cr :=
    if o.uCross < cfg.crossrate then
      let point := o.cut % (parent1.vec.length + 1)
      let vs := crossoverVec parent1.vec parent2.vec point
      ((⟨nid, vs.1⟩ : Chromosome), (⟨nid + 1, vs.2⟩ : Chromosome), nid + 2)
    else (parent1, parent2, nid)
  let c1 := cr.1
  let c2 := cr.2.1
  let nid1 := cr.2.2
  let m1 :=
    if o.uMut1 < cfg.mutrate then
      ((⟨nid1, mutVec cfg.mutrate o.draws1 0 c1.vec⟩ : Chromosome), nid1 + 1)
    else (c1, nid1)
  let c1' := m1.1
  let nid2 := m1.2
  let m2 :=
    if o.uMut2 < cfg.mutrate then
      ((⟨nid2, mutVec cfg.mutrate o.draws2 0 c2.vec⟩ : Chromosome), nid2 + 1)
    else (c2, nid2)
  let c2' := m2.1
  let nid3 := m2.2
  let d := (if pyNe c1' parent1 && pyNe c1' parent2 then 1 else 0) +
           (if pyNe c2' parent1 && pyNe c2' parent2 then 1 else 0)
  ⟨c1', c2', nid3, d⟩

/-- The whole reproduction loop: `n` iterations starting at loop index `i`,
collecting children in order and summing the `EVALS` increments.  `POP`
and the fitness map stay fixed during the loop, as in the source. -/
def reproFrom (cfg : GAConfig) (pop : List Chromosome) (os : ℕ → Oracle) :
    ℕ → ℕ → ℕ → List Chromosome × ℕ × ℕ
  | _, 0, nid => ([], nid, 0)
  | i, n + 1, nid =>
    let po := pairStep cfg (os i) pop nid
    let rec_ := reproFrom cfg pop os (i + 1) n po.nid
    (po.c1 :: po.c2 :: rec_.1, rec_.2.1, po.d + rec_.2.2)

/-- Elitist replacement: `if best_chrom not in child_POP:
child_POP.append(best_chrom)` (`in` compares by object identity). -/
def elitistReplace (children : List Chromosome) (best : Chromosome) :
    List Chromosome :=
  if children.any fun c => decide (c.oid = best.oid) then children
  else children ++ [best]

/-- Loop state of `GA_SEARCH`: the population, the `EVALS` counter, the
next fresh object identity, and the number of fitness lines written to the
run log. -/
structure GAState where
  pop : List Chromosome
  evals : ℕ
  nextOid : ℕ
  lines : ℕ

/-- One generation of the `while EVALS < EVAL_LIMIT` body: reproduce
`popsize//2` pairs, apply elitist replacement with the previous
generation's fittest map key, and record the new children's fitness lines
(`for new in new_children: write; if EVALS == EVAL_LIMIT: break` writes
one line when `EVALS` equals the limit exactly, else one line per child). -/
def genStep (cfg : GAConfig) (fit : List Bool → ℚ) (isMin : Bool)
    (os : ℕ → Oracle) (st : GAState) : GAState :=
  let rep := reproFrom cfg st.pop os 0 (cfg.popsize / 2) st.nextOid
  let children := rep.1
  let nid := rep.2.1
  let evals' := st.evals + rep.2.2
  let best := bestChrom fit isMin st.pop
  let childPop := elitistReplace children best
  let newLines :=
    if children.length = 0 then 0
    else if evals' = EVAL_LIMIT then 1 else children.length
  ⟨childPop, evals', nid, st.lines + newLines⟩

/-- State after initialization: `popsize` fresh chromosomes (bitstrings
drawn by the oracle `vecs`), one fitness line and one `EVALS` increment
recorded per initial individual. -/
def mkInit (cfg : GAConfig) (vecs : ℕ → List Bool) : GAState :=
  ⟨(List.range cfg.popsize).map fun i => ⟨i, vecs i⟩,
   cfg.popsize, cfg.popsize, cfg.popsize⟩

/-- The state after `n` iterations of `while EVALS < EVAL_LIMIT`: once the
guard fails the state no longer changes.  `og n` supplies generation `n`'s
oracles. -/
def runGens (cfg : GAConfig) (fit : List Bool → ℚ) (isMin : Bool)
    (og : ℕ → ℕ → Oracle) (init : GAState) : ℕ → GAState
  | 0 => init
  | n + 1 =>
    let st := runGens cfg fit isMin og init n
    if st.evals < EVAL_LIMIT then genStep cfg fit isMin (og n) st else st

/-- Termination of the `GA_SEARCH` loop: after some number of generations
the guard `EVALS < EVAL_LIMIT` fails. -/
def gaTerminates (cfg : GAConfig) (fit : List Bool → ℚ) (isMin : Bool)
    (og : ℕ → ℕ → Oracle) (init : GAState) : Prop :=
  ∃ n, EVAL_LIMIT ≤ (runGens cfg fit isMin og init n).evals

/-! ### Index of the last occurrence (proof device for dict semantics) -/

/-- Index of the last occurrence of `s` in a list (`none` when absent).
The value a key ends up with in `initializeEncodings`' dict is determined
by its last occurrence in the encoding list. -/
def lastIdx? {α : Type} [DecidableEq α] : List α → α → Option ℕ
  | [], _ => none
  | a :: rest, s =>
    match lastIdx? rest s with
    | some i => some (i + 1)
    | none => if a = s then some 0 else none

/-! ### Concrete instances used by counterexamples and witnesses -/

/-- The interval `(1, 2, 0.3)`: valid, with `round(|2-1|/0.3 + 1) = 4 = 2^2`
discretized points, and `start` not an integer multiple of `step`. -/
def iv13 : Interval := ⟨1, 2, 3 / 10⟩

/-- The table `generateBinaryRepresentation((1, 2, 0.3), 2)` evaluates to:
`int(1/0.3) = 3`, so the points are `0.9, 1.2, 1.5, 1.8`. -/
def rep13 : List (List Bool × ℚ) :=
  [([false, false], 9 / 10), ([false, true], 6 / 5),
   ([true, false], 3 / 2), ([true, true], 9 / 5)]

/-- A valid configuration with `mutrate = 0`, `crossrate = 0`,
`popsize = 2`. -/
def cfgZero : GAConfig := ⟨0, 0, 2⟩

/-- A valid configuration with `mutrate = 0`, `crossrate = 1`,
`popsize = 2`. -/
def cfgOne : GAConfig := ⟨0, 1, 2⟩

/-- A valid configuration with `popsize = 6000` (positive and even). -/
def cfgBig : GAConfig := ⟨0, 0, 6000⟩

/-- An oracle whose uniform draws are all `0` and whose index draws are
all `0` (every draw is inside the ranges the source draws from). -/
def oracleZero : Oracle :=
  ⟨0, 0, 0, 0, 0, 0, fun _ => 0, fun _ => 0⟩

/-- An oracle whose crossover gate draw is `0` (so crossover fires for any
positive crossover rate), cut point `0`, and mutation gate draws `1`
(never below a zero mutation rate). -/
def oracleCross0 : Oracle :=
  ⟨0, 1, 0, 0, 1, 1, fun _ => 1, fun _ => 1⟩

/-- A two-chromosome population with distinct identities and bitstrings. -/
def popAB : List Chromosome := [⟨0, [false]⟩, ⟨1, [true]⟩]

/-- A constant fitness function (all individuals tie). -/
def fitConst : List Bool → ℚ := fun _ => 0

/-- A constant fitness map for `tournament_selection` (all individuals
tie). -/
def fmapConst : Chromosome → ℚ := fun _ => 0

/-- The run with `mutrate = 0`, `crossrate = 0`, `popsize = 2`, all-zero
draws, constant fitness, starting from two one-bit individuals. -/
def runZero (n : ℕ) : GAState :=
  runGens cfgZero fitConst true (fun _ _ => oracleZero)
    (mkInit cfgZero fun _ => [false]) n

/-- The run with `mutrate = 0`, `crossrate = 1`, `popsize = 2`, draws that
always fire the crossover gate, constant fitness. -/
def runOne (n : ℕ) : GAState :=
  runGens cfgOne fitConst true (fun _ _ => oracleCross0)
    (mkInit cfgOne fun _ => [false]) n

/-- "at least as fit": `a ≤ b` when minimizing, `b ≤ a` when maximizing. -/
def cmpQ (isMin : Bool) (a b : ℚ) : Prop := if isMin then a ≤ b else b ≤ a

/-- "strictly fitter": `a < b` when minimizing, `b < a` when maximizing. -/
def sCmpQ (isMin : Bool) (a b : ℚ) : Prop := if isMin then a < b else b < a

/-! ## Theorems -/

/-! ### Helper lemmas on `dedupOid` -/

lemma dedupOidAux_subset :
    ∀ (l : List Chromosome) (seen : List ℕ), dedupOidAux seen l ⊆ l := by
  intro l
  induction l with
  | nil => intro seen; simp [dedupOidAux]
  | cons c rest ih =>
    intro seen
    rw [dedupOidAux]
    by_cases hs : c.oid ∈ seen
    · rw [if_pos hs]
      exact fun x hx => List.mem_cons.2 (Or.inr (ih seen hx))
    · rw [if_neg hs]
      intro x hx
      rcases List.mem_cons.1 hx with h | h
      · exact List.mem_cons.2 (Or.inl h)
      · exact List.mem_cons.2 (Or.inr (ih (c.oid :: seen) h))

lemma dedupOid_subset (l : List Chromosome) : dedupOid l ⊆ l :=
  dedupOidAux_subset l []

lemma dedupOidAux_oid_mem :
    ∀ (l : List Chromosome) (seen : List ℕ) (c : Chromosome), c ∈ l →
      c.oid ∉ seen → ∃ d ∈ dedupOidAux seen l, d.oid = c.oid := by
  intro l
  induction l with
  | nil => intro seen c hc; simp at hc
  | cons a rest ih =>
    intro seen c hc hseen
    rw [dedupOidAux]
    by_cases hs : a.oid ∈ seen
    · rw [if_pos hs]
      rcases List.mem_cons.1 hc with h | h
      · exact absurd (h ▸ hs) hseen
      · exact ih seen c h hseen
    · rw [if_neg hs]
      by_cases hca : c.oid = a.oid
      · exact ⟨a, List.mem_cons.2 (Or.inl rfl), hca.symm⟩
      · rcases List.mem_cons.1 hc with h | h
        · exact absurd (congrArg Chromosome.oid h) hca
        · obtain ⟨d, hd, hdo⟩ := ih (a.oid :: seen) c h
            (by
              intro hmem
              rcases List.mem_cons.1 hmem with h2 | h2
              · exact hca h2
              · exact hseen h2)
          exact ⟨d, List.mem_cons.2 (Or.inr hd), hdo⟩

lemma dedupOid_oid_mem (l : List Chromosome) (c : Chromosome) (hc : c ∈ l) :
    ∃ d ∈ dedupOid l, d.oid = c.oid :=
  dedupOidAux_oid_mem l [] c hc (by simp)

/-- C7 helper: the claim theorem for `crossoverVec`. -/
lemma crossoverVec_fst (p1 p2 : List Bool) (k : ℕ) :
    (crossoverVec p1 p2 k).1 = p1.take k ++ p2.drop k := rfl

/-- C7: for equal-length parents and cut point `k ≤ L`, `crossover` returns
`p1[:k] + p2[k:]` and `p2[:k] + p1[k:]`, both of length `L`; the cut point
`0` swaps the parents and the cut point `L` reproduces them. -/
theorem crossover_one_point (p1 p2 : List Bool) (k : ℕ)
    (hlen : p1.length = p2.length) (hk : k ≤ p1.length) :
    (crossoverVec p1 p2 k).1 = p1.take k ++ p2.drop k ∧
    (crossoverVec p1 p2 k).2 = p2.take k ++ p1.drop k ∧
    (crossoverVec p1 p2 k).1.length = p1.length ∧
    (crossoverVec p1 p2 k).2.length = p1.length ∧
    (crossoverVec p1 p2 0).1 = p2 ∧ (crossoverVec p1 p2 0).2 = p1 ∧
    (crossoverVec p1 p2 p1.length).1 = p1 ∧
    (crossoverVec p1 p2 p1.length).2 = p2 := by
  refine ⟨rfl, rfl, ?_, ?_, by simp [crossoverVec], by simp [crossoverVec],
    ?_, ?_⟩
  · simp only [crossoverVec, List.length_append, List.length_take,
      List.length_drop]
    omega
  · simp only [crossoverVec, List.length_append, List.length_take,
      List.length_drop]
    omega
  · simp [crossoverVec, hlen, List.take_length, List.drop_length]
  · simp [crossoverVec, hlen, List.take_length, List.drop_length]

theorem crossover_one_point_witness :
    ([true, false] : List Bool).length = ([false, true] : List Bool).length ∧
    (1 ≤ ([true, false] : List Bool).length ∧
      (crossoverVec [true, false] [false, true] 1).1 =
        ([true, false] : List Bool).take 1 ++ ([false, true] : List Bool).drop 1) :=
  ⟨by decide, by decide,
    (crossover_one_point [true, false] [false, true] 1 (by decide) (by decide)).1⟩

/-! ### C1: chromosome equality -/

/-- C1 counterexample: `Chromosome` defines neither `__eq__` nor
`__hash__`, so Python equality is object identity; two distinct objects
with identical bitstrings compare unequal. -/
theorem chromosome_value_equality_fails :
    ¬ pyEq ⟨0, [true]⟩ ⟨1, [true]⟩ ∧
    (Chromosome.mk 0 [true]).vec = (Chromosome.mk 1 [true]).vec := by
  exact ⟨by simp [pyEq], rfl⟩

/-- C1 amended: chromosome equality is object identity (`pyEq a b ↔
a.oid = b.oid`), and although value-equal objects are distinct map keys,
every fitness-map lookup in the program is performed with an object stored
in the map, so the identity-keyed lookup succeeds and returns that
chromosome's fitness. -/
theorem chromosome_identity_map_lookup (fit : List Bool → ℚ)
    (pop : List Chromosome) (c : Chromosome) (hc : c ∈ pop)
    (hwf : ∀ a ∈ pop, ∀ b ∈ pop, a.oid = b.oid → a = b) :
    lookupRep (mkFitMap fit pop) c.oid = some (fit c.vec) ∧
    (∀ a b : Chromosome, pyEq a b ↔ a.oid = b.oid) := by
  refine ⟨?_, fun a b => Iff.rfl⟩
  obtain ⟨d, hd, hdo⟩ := dedupOid_oid_mem pop c hc
  have hmem : ∀ x ∈ dedupOid pop, x ∈ pop := fun x hx => dedupOid_subset pop hx
  have hdc : d = c := hwf d (hmem d hd) c hc hdo
  subst hdc
  unfold mkFitMap lookupRep
  have hfind : ((dedupOid pop).map fun x => (x.oid, fit x.vec)).find?
      (fun p => decide (p.1 = d.oid)) = some (d.oid, fit d.vec) := by
    have hsome : (((dedupOid pop).map fun x => (x.oid, fit x.vec)).find?
        (fun p => decide (p.1 = d.oid))).isSome := by
      rw [List.find?_isSome]
      exact ⟨(d.oid, fit d.vec), List.mem_map.2 ⟨d, hd, rfl⟩, by simp⟩
    obtain ⟨p, hp⟩ := Option.isSome_iff_exists.1 hsome
    have hpmem := List.find?_some hp
    have hpl := List.mem_of_find?_eq_some hp
    obtain ⟨x, hx, hxp⟩ := List.mem_map.1 hpl
    have hxoid : x.oid = d.oid := by
      have h2 := of_decide_eq_true hpmem
      rw [← hxp] at h2
      exact h2
    have hxd : x = d := hwf x (hmem x hx) d (hmem d hd) hxoid
    rw [hp, ← hxp, hxd]
  rw [hfind]
  rfl

theorem chromosome_identity_map_lookup_witness :
    (⟨0, [false]⟩ : Chromosome) ∈ popAB ∧
    lookupRep (mkFitMap fitConst popAB) (Chromosome.mk 0 [false]).oid =
      some (fitConst (Chromosome.mk 0 [false]).vec) := by
  refine ⟨by decide, ?_⟩
  exact (chromosome_identity_map_lookup fitConst popAB ⟨0, [false]⟩
    (by decide) (by decide)).1

/-! ### Helper lemmas on the dict model -/

lemma lookupRep_nil {α β : Type} [DecidableEq α] (k : α) :
    lookupRep ([] : List (α × β)) k = none := rfl

lemma lookupRep_cons {α β : Type} [DecidableEq α] (a : α) (b : β)
    (rest : List (α × β)) (k : α) :
    lookupRep ((a, b) :: rest) k =
      if a = k then some b else lookupRep rest k := by
  by_cases h : a = k <;> simp [lookupRep, List.find?_cons, h]

lemma lookupRep_updInsert {α β : Type} [DecidableEq α] (d : List (α × β))
    (k : α) (v : β) (x : α) :
    lookupRep (updInsert d k v) x =
      if x = k then some v else lookupRep d x := by
  induction d with
  | nil =>
    by_cases h : x = k
    · subst h; simp [updInsert, lookupRep_cons]
    · rw [updInsert, lookupRep_cons,
        if_neg (show ¬k = x from fun hc => h hc.symm), if_neg h, lookupRep_nil]
  | cons p rest ih =>
    obtain ⟨a, b⟩ := p
    rw [updInsert]
    by_cases hak : a = k
    · subst hak
      rw [if_pos rfl]
      by_cases hx : x = a
      · subst hx
        rw [lookupRep_cons, if_pos rfl, if_pos rfl]
      · rw [lookupRep_cons, if_neg (show ¬a = x from fun hc => hx hc.symm),
          if_neg hx, lookupRep_cons,
          if_neg (show ¬a = x from fun hc => hx hc.symm)]
    · rw [if_neg hak]
      by_cases hx : x = a
      · subst hx
        rw [lookupRep_cons, if_pos rfl, if_neg hak, lookupRep_cons, if_pos rfl]
      · rw [lookupRep_cons, if_neg (show ¬a = x from fun hc => hx hc.symm), ih,
          lookupRep_cons, if_neg (show ¬a = x from fun hc => hx hc.symm)]

lemma lookupRep_eq_none_iff {α β : Type} [DecidableEq α] (d : List (α × β))
    (k : α) : lookupRep d k = none ↔ ∀ p ∈ d, p.1 ≠ k := by
  constructor
  · intro h p hp hpk
    unfold lookupRep at h
    rcases hf : d.find? fun q => decide (q.1 = k) with _ | q
    · rw [List.find?_eq_none] at hf
      exact hf p hp (by simp [hpk])
    · rw [hf] at h
      simp at h
  · intro h
    unfold lookupRep
    rcases hf : d.find? fun q => decide (q.1 = k) with _ | q
    · rw [hf]; rfl
    · have hps := List.find?_some hf
      exact absurd (of_decide_eq_true (by simpa using hps))
        (h q (List.mem_of_find?_eq_some hf))

lemma mem_of_lookupRep {α β : Type} [DecidableEq α] (d : List (α × β))
    (k : α) (v : β) (h : lookupRep d k = some v) : (k, v) ∈ d := by
  unfold lookupRep at h
  rcases hf : d.find? fun q => decide (q.1 = k) with _ | q
  · rw [hf] at h; simp at h
  · rw [hf] at h
    have hps := List.find?_some hf
    have h1 : q.1 = k := of_decide_eq_true (by simpa using hps)
    have h2 := List.mem_of_find?_eq_some hf
    have h3 : q.2 = v := by simpa using h
    have : q = (k, v) := by
      obtain ⟨qa, qb⟩ := q
      simp only at h1 h3
      rw [h1, h3]
    rwa [← this]

lemma lookupRep_of_mem_nodupKeys {α β : Type} [DecidableEq α]
    (d : List (α × β)) (hn : (d.map Prod.fst).Nodup) (p : α × β)
    (hp : p ∈ d) : lookupRep d p.1 = some p.2 := by
  induction d with
  | nil => simp at hp
  | cons q rest ih =>
    obtain ⟨a, b⟩ := q
    rw [List.map_cons, List.nodup_cons] at hn
    rcases List.mem_cons.1 hp with h | h
    · subst h
      simp [lookupRep_cons]
    · have hne : a ≠ p.1 := by
        intro hcontra
        exact hn.1 (hcontra ▸ List.mem_map.2 ⟨p, h, rfl⟩)
      rw [lookupRep_cons, if_neg hne]
      exact ih hn.2 h

lemma updInsert_keys {α β : Type} [DecidableEq α] (d : List (α × β))
    (k : α) (v : β) :
    (updInsert d k v).map Prod.fst =
      if k ∈ d.map Prod.fst then d.map Prod.fst else d.map Prod.fst ++ [k] := by
  induction d with
  | nil => simp [updInsert]
  | cons p rest ih =>
    obtain ⟨a, b⟩ := p
    rw [updInsert]
    by_cases hak : a = k
    · subst hak
      simp
    · simp only [if_neg hak, List.map_cons, ih]
      by_cases hk : k ∈ rest.map Prod.fst
      · simp [hk, Ne.symm hak]
      · simp [hk, Ne.symm hak]

lemma updInsert_nodupKeys {α β : Type} [DecidableEq α] (d : List (α × β))
    (k : α) (v : β) (hn : (d.map Prod.fst).Nodup) :
    ((updInsert d k v).map Prod.fst).Nodup := by
  rw [updInsert_keys]
  by_cases hk : k ∈ d.map Prod.fst
  · simpa [hk]
  · simpa [hk] using List.Nodup.append hn (List.nodup_singleton k)
      (by simpa [List.disjoint_singleton] using hk)

lemma mkRep_nodupKeys {α : Type} [DecidableEq α] (step : ℚ) :
    ∀ (enc : List α) (j : ℤ) (d : List (α × ℚ)),
    (d.map Prod.fst).Nodup → ((mkRep step enc j d).map Prod.fst).Nodup := by
  intro enc
  induction enc with
  | nil => intro j d hd; simpa [mkRep]
  | cons s rest ih =>
    intro j d hd
    rw [mkRep]
    exact ih _ _ (updInsert_nodupKeys _ _ _ hd)

lemma lastIdx?_spec {α : Type} [DecidableEq α] :
    ∀ (l : List α) (s : α) (i : ℕ), lastIdx? l s = some i →
      ∃ h : i < l.length, l.get ⟨i, h⟩ = s := by
  intro l
  induction l with
  | nil => intro s i h; simp [lastIdx?] at h
  | cons a rest ih =>
    intro s i h
    rw [lastIdx?] at h
    rcases hrest : lastIdx? rest s with _ | j
    · rw [hrest] at h
      by_cases has : a = s
      · rw [if_pos has] at h
        obtain rfl : i = 0 := by simpa using h.symm
        exact ⟨Nat.succ_pos _, has⟩
      · rw [if_neg has] at h; exact absurd h (by simp)
    · rw [hrest] at h
      obtain rfl : i = j + 1 := by simpa using h.symm
      obtain ⟨hj, hget⟩ := ih s j hrest
      exact ⟨Nat.succ_lt_succ hj, hget⟩

lemma lastIdx?_eq_none {α : Type} [DecidableEq α] (l : List α) (s : α)
    (h : s ∉ l) : lastIdx? l s = none := by
  induction l with
  | nil => rfl
  | cons a rest ih =>
    rw [lastIdx?, ih (fun hc => h (List.mem_cons.2 (Or.inr hc))),
      if_neg (fun hc => h (List.mem_cons.2 (Or.inl hc.symm)))]

lemma lastIdx?_of_nodup_get {α : Type} [DecidableEq α] :
    ∀ (l : List α), l.Nodup → ∀ (i : ℕ) (h : i < l.length),
      lastIdx? l (l.get ⟨i, h⟩) = some i := by
  intro l
  induction l with
  | nil => intro _ i h; simp at h
  | cons a rest ih =>
    intro hn i h
    rw [List.nodup_cons] at hn
    match i with
    | 0 =>
      have : (a :: rest).get ⟨0, h⟩ = a := rfl
      rw [this, lastIdx?, lastIdx?_eq_none rest a hn.1, if_pos rfl]
    | j + 1 =>
      have hget : (a :: rest).get ⟨j + 1, h⟩ =
          rest.get ⟨j, Nat.lt_of_succ_lt_succ h⟩ := rfl
      rw [hget, lastIdx?, ih hn.2 j (Nat.lt_of_succ_lt_succ h)]

lemma lookupRep_mkRep {α : Type} [DecidableEq α] (step : ℚ) :
    ∀ (enc : List α) (j : ℤ) (d : List (α × ℚ)) (s : α),
    lookupRep (mkRep step enc j d) s =
      match lastIdx? enc s with
      | some i => some (((j + (i : ℤ)) : ℚ) * step)
      | none => lookupRep d s := by
  intro enc
  induction enc with
  | nil => intro j d s; rfl
  | cons a rest ih =>
    intro j d s
    rw [mkRep, ih, lastIdx?]
    rcases hrest : lastIdx? rest s with _ | i
    · simp only
      rw [lookupRep_updInsert]
      by_cases has : a = s
      · rw [if_pos (has ▸ rfl), if_pos has]
        norm_num
      · rw [if_neg (fun hc => has hc.symm), if_neg has]
    · simp only
      congr 1
      push_cast
      ring

lemma mkRep_val_inj {α : Type} [DecidableEq α] (step : ℚ) (hstep : step ≠ 0)
    (enc : List α) (j : ℤ) (s1 s2 : α) (v : ℚ)
    (h1 : lookupRep (mkRep step enc j []) s1 = some v)
    (h2 : lookupRep (mkRep step enc j []) s2 = some v) : s1 = s2 := by
  rw [lookupRep_mkRep] at h1 h2
  rcases e1 : lastIdx? enc s1 with _ | i1
  · rw [e1] at h1
    exact absurd h1 (by simp [lookupRep_nil])
  rcases e2 : lastIdx? enc s2 with _ | i2
  · rw [e2] at h2
    exact absurd h2 (by simp [lookupRep_nil])
  rw [e1] at h1
  rw [e2] at h2
  have hv := (Option.some.inj h1).trans (Option.some.inj h2).symm
  have h3 := mul_right_cancel₀ hstep hv
  have hii : i1 = i2 := by exact_mod_cast add_left_cancel h3
  subst hii
  obtain ⟨hb1, hg1⟩ := lastIdx?_spec enc s1 i1 e1
  obtain ⟨hb2, hg2⟩ := lastIdx?_spec enc s2 i1 e2
  rw [← hg1, ← hg2]

lemma nodupKeys_mem_ext {α β : Type} [DecidableEq α] (d : List (α × β))
    (hn : (d.map Prod.fst).Nodup) (p q : α × β) (hp : p ∈ d) (hq : q ∈ d)
    (hk : p.1 = q.1) : p = q := by
  have h1 := lookupRep_of_mem_nodupKeys d hn p hp
  have h2 := lookupRep_of_mem_nodupKeys d hn q hq
  rw [hk, h2] at h1
  obtain ⟨pa, pb⟩ := p
  obtain ⟨qa, qb⟩ := q
  simp only at hk h1
  rw [hk, Option.some.inj h1]

lemma mkRep_snd_nodup {α : Type} [DecidableEq α] (step : ℚ) (hstep : step ≠ 0)
    (enc : List α) (j : ℤ) :
    ((mkRep step enc j []).map Prod.snd).Nodup := by
  have hkeys : ((mkRep step enc j []).map Prod.fst).Nodup :=
    mkRep_nodupKeys step enc j [] (by simp)
  have hnd : (mkRep step enc j []).Nodup := hkeys.of_map
  refine List.Nodup.map_on ?_ hnd
  intro p hp q hq hpq
  have h1 := lookupRep_of_mem_nodupKeys _ hkeys p hp
  have h2 := lookupRep_of_mem_nodupKeys _ hkeys q hq
  rw [hpq] at h1
  exact nodupKeys_mem_ext _ hkeys p q hp hq
    (mkRep_val_inj step hstep enc j p.1 q.1 q.2 h1 h2)

lemma mkDict_lookup {α β : Type} [DecidableEq α] :
    ∀ (l : List (α × β)), (l.map Prod.fst).Nodup → ∀ (d : List (α × β)) (k : α),
    lookupRep (l.foldl (fun d p => updInsert d p.1 p.2) d) k =
      match lookupRep l k with
      | some v => some v
      | none => lookupRep d k := by
  intro l
  induction l with
  | nil => intro _ d k; rfl
  | cons p rest ih =>
    intro hn d k
    obtain ⟨a, b⟩ := p
    rw [List.map_cons, List.nodup_cons] at hn
    rw [List.foldl_cons, ih hn.2, lookupRep_cons]
    by_cases hak : a = k
    · subst hak
      have hnone : lookupRep rest a = none := by
        rw [lookupRep_eq_none_iff]
        intro q hq hqa
        exact hn.1 (hqa ▸ List.mem_map.2 ⟨q, hq, rfl⟩)
      rw [hnone, if_pos rfl]
      simp [lookupRep_updInsert]
    · rw [if_neg hak]
      rcases hrest : lookupRep rest k with _ | v
      · simp only
        rw [lookupRep_updInsert,
          if_neg (show ¬k = a from fun hc => hak hc.symm)]
      · rfl

/-! ### C8: the encoding table is a bijection -/

lemma initializeEncodings_ok {α : Type} [DecidableEq α] (enc : List α)
    (iv : Interval) (rep : List (α × ℚ))
    (h : initializeEncodings enc iv = .ok rep) :
    isValidInterval iv ∧ (enc.length : ℤ) = numPoints iv ∧
    rep = mkRep iv.step enc (pyInt (iv.start / iv.step)) [] := by
  unfold initializeEncodings at h
  by_cases h1 : isValidInterval iv
  · rw [if_pos h1] at h
    by_cases h2 : (enc.length : ℤ) = numPoints iv
    · rw [if_pos h2] at h
      exact ⟨h1, h2, (Except.ok.inj h).symm⟩
    · rw [if_neg h2] at h
      exact absurd h (by simp)
  · rw [if_neg h1] at h
    exact absurd h (by simp)

lemma step_ne_zero_of_valid (iv : Interval) (h : isValidInterval iv) :
    iv.step ≠ 0 := by
  rcases h with ⟨_, h2⟩ | ⟨_, h2⟩
  · exact ne_of_gt h2
  · exact ne_of_lt h2

lemma pyInt_intCast (m : ℤ) : pyInt (m : ℚ) = m := by
  unfold pyInt
  by_cases h : (0 : ℚ) ≤ (m : ℚ)
  · rw [if_pos h, Int.floor_intCast]
  · rw [if_neg h]
    rw [show (-(m : ℚ)) = ((-m : ℤ) : ℚ) by push_cast; ring, Int.floor_intCast]
    ring

lemma pyRound_intCast (m : ℤ) : pyRound (m : ℚ) = m := by
  unfold pyRound
  rw [Int.floor_intCast]
  rw [if_pos (by norm_num)]

lemma invRep_lookup {α : Type} [DecidableEq α] (rep : List (α × ℚ))
    (hv : (rep.map Prod.snd).Nodup) (p : α × ℚ) (hp : p ∈ rep) :
    lookupRep (invRep rep) p.2 = some p.1 := by
  unfold invRep mkDict
  have hkeys : ((rep.map fun q => (q.2, q.1)).map Prod.fst).Nodup := by
    simpa [List.map_map, Function.comp_def] using hv
  rw [mkDict_lookup _ hkeys []]
  have hmem : ((p.2, p.1) : ℚ × α) ∈ rep.map fun q => (q.2, q.1) :=
    List.mem_map.2 ⟨p, hp, rfl⟩
  have hl := lookupRep_of_mem_nodupKeys _ hkeys (p.2, p.1) hmem
  rw [hl]

/-- C8: for every table built by a successful `initializeEncodings` call
(valid interval, encoding cardinality equal to the number of discretized
points), the table is a bijection between its bitstring domain and its
real range: `to_num` and `to_bitstr` invert each other on every entry, so
`decode(encode(x)) = x` on the range and `encode(decode(s)) = s` on the
domain. -/
theorem representation_bijection {α : Type} [DecidableEq α] (enc : List α)
    (iv : Interval) (rep : List (α × ℚ))
    (h : initializeEncodings enc iv = .ok rep) :
    (∀ p ∈ rep, to_num rep p.1 = some p.2) ∧
    (∀ p ∈ rep, to_bitstr rep p.2 = some p.1) ∧
    (∀ p ∈ rep, (to_num rep p.1).bind (fun x => to_bitstr rep x) = some p.1) ∧
    (∀ p ∈ rep, (to_bitstr rep p.2).bind (fun s => to_num rep s) = some p.2) := by
  obtain ⟨hval, hlen, hrep⟩ := initializeEncodings_ok enc iv rep h
  have hstep := step_ne_zero_of_valid iv hval
  have hkeys : (rep.map Prod.fst).Nodup := by
    rw [hrep]; exact mkRep_nodupKeys _ enc _ [] (by simp)
  have hvals : (rep.map Prod.snd).Nodup := by
    rw [hrep]; exact mkRep_snd_nodup _ hstep enc _
  have hnum : ∀ p ∈ rep, to_num rep p.1 = some p.2 := fun p hp =>
    lookupRep_of_mem_nodupKeys rep hkeys p hp
  have hbit : ∀ p ∈ rep, to_bitstr rep p.2 = some p.1 := fun p hp =>
    invRep_lookup rep hvals p hp
  refine ⟨hnum, hbit, ?_, ?_⟩
  · intro p hp
    rw [hnum p hp]
    simpa using hbit p hp
  · intro p hp
    rw [hbit p hp]
    simpa using hnum p hp

theorem representation_bijection_witness :
    initializeEncodings [[false], [true]] (⟨0, 1, 1⟩ : Interval) =
      .ok [([false], 0), ([true], 1)] ∧
    to_num [([false], (0 : ℚ)), ([true], 1)] [false] = some 0 := by
  have hval : isValidInterval ⟨0, 1, 1⟩ := by
    unfold isValidInterval
    norm_num
  have hnp : numPoints ⟨0, 1, 1⟩ = 2 := by
    unfold numPoints
    rw [show |((⟨0, 1, 1⟩ : Interval).stop - (⟨0, 1, 1⟩ : Interval).start) /
        (⟨0, 1, 1⟩ : Interval).step| + 1 = ((2 : ℤ) : ℚ) by norm_num,
      pyRound_intCast]
  have hpi : pyInt ((⟨0, 1, 1⟩ : Interval).start / (⟨0, 1, 1⟩ : Interval).step)
      = 0 := by
    rw [show (⟨0, 1, 1⟩ : Interval).start / (⟨0, 1, 1⟩ : Interval).step =
        ((0 : ℤ) : ℚ) by norm_num, pyInt_intCast]
  have h : initializeEncodings [[false], [true]] (⟨0, 1, 1⟩ : Interval) =
      .ok [([false], 0), ([true], 1)] := by
    unfold initializeEncodings
    rw [if_pos hval, if_pos (by rw [hnp]; norm_num), hpi]
    norm_num [mkRep, updInsert]
  exact ⟨h, (representation_bijection [[false], [true]] ⟨0, 1, 1⟩
    [([false], 0), ([true], 1)] h).1 ([false], 0) (by norm_num)⟩

/-! ### C9: ascending binary code maps to consecutive points -/

lemma bitsToNat_append_bit (l : List Bool) (b : Bool) :
    bitsToNat (l ++ [b]) = 2 * bitsToNat l + (if b then 1 else 0) := by
  unfold bitsToNat
  rw [List.foldl_append]
  rfl

lemma bitsToNat_natToBits : ∀ (b n : ℕ), bitsToNat (natToBits b n) = n % 2 ^ b := by
  intro b
  induction b with
  | zero => intro n; simp [natToBits, bitsToNat, Nat.mod_one]
  | succ b ih =>
    intro n
    rw [natToBits, bitsToNat_append_bit, ih]
    have hbit : (if decide (n % 2 = 1) then 1 else 0) = n % 2 := by
      by_cases h : n % 2 = 1
      · simp [h]
      · have h0 : n % 2 = 0 := by omega
        simp [h, h0]
    rw [hbit]
    have hc : 0 < 2 ^ b := Nat.pos_pow_of_pos b (by norm_num)
    have e3 : 2 * 2 ^ b * (n / 2 / 2 ^ b) = 2 * (2 ^ b * (n / 2 / 2 ^ b)) := by
      ring
    have h1 : n = (2 * (n / 2 % 2 ^ b) + n % 2) + 2 * 2 ^ b * (n / 2 / 2 ^ b) := by
      have e2 := Nat.div_add_mod (n / 2) (2 ^ b)
      omega
    have hlt : 2 * (n / 2 % 2 ^ b) + n % 2 < 2 * 2 ^ b := by
      have := Nat.mod_lt (n / 2) hc
      omega
    have hmod : n % (2 * 2 ^ b) = 2 * (n / 2 % 2 ^ b) + n % 2 := by
      conv_lhs => rw [h1]
      rw [Nat.add_mul_mod_self_left, Nat.mod_eq_of_lt hlt]
    rw [pow_succ, Nat.mul_comm (2 ^ b) 2, hmod]

lemma natToBits_inj (b m n : ℕ) (hm : m < 2 ^ b) (hn : n < 2 ^ b)
    (h : natToBits b m = natToBits b n) : m = n := by
  have h1 := bitsToNat_natToBits b m
  have h2 := bitsToNat_natToBits b n
  rw [h, h2] at h1
  rw [Nat.mod_eq_of_lt hn, Nat.mod_eq_of_lt hm] at h1
  omega

lemma binaryCode_nodup (b : ℕ) : (binaryCode b).Nodup := by
  unfold binaryCode
  refine List.Nodup.map_on ?_ (List.nodup_range _)
  intro m hm n hn hmn
  exact natToBits_inj b m n (List.mem_range.1 hm) (List.mem_range.1 hn) hmn

lemma binaryCode_length (b : ℕ) : (binaryCode b).length = 2 ^ b := by
  unfold binaryCode
  rw [List.length_map, List.length_range]

lemma lastIdx?_binaryCode (b i : ℕ) (hi : i < 2 ^ b) :
    lastIdx? (binaryCode b) (natToBits b i) = some i := by
  have hlen : i < (binaryCode b).length := by rw [binaryCode_length]; exact hi
  have hget : (binaryCode b).get ⟨i, hlen⟩ = natToBits b i := by
    unfold binaryCode
    simp [List.get_eq_getElem, List.getElem_map, List.getElem_range]
  rw [← hget]
  exact lastIdx?_of_nodup_get (binaryCode b) (binaryCode_nodup b) i hlen

lemma lookupRep_mkRep_last {α : Type} [DecidableEq α] (step : ℚ) (enc : List α)
    (j : ℤ) (d : List (α × ℚ)) (s : α) (i : ℕ) (h : lastIdx? enc s = some i) :
    lookupRep (mkRep step enc j d) s =
      some (((j : ℚ) + ((i : ℤ) : ℚ)) * step) := by
  rw [lookupRep_mkRep, h]

/-- C9 amended: for every valid interval and every successfully built
binary table, the `i`-th ascending bitstring decodes to
`(int(start/step) + i) * step` — consecutive multiples of `step` starting
at `int(start/step)*step`; when `start` is an integer multiple of `step`
(as in the intervals the experiments use) this is exactly
`start + i*step`, with the first bitstring decoding to `start`. -/
theorem binary_rep_ascending (iv : Interval) (b : ℕ)
    (rep : List (List Bool × ℚ)) (i : ℕ)
    (h : generateBinaryRepresentation iv b = .ok rep) (hi : i < 2 ^ b) :
    to_num rep (natToBits b i) =
      some (((pyInt (iv.start / iv.step) + (i : ℤ) : ℤ) : ℚ) * iv.step) ∧
    (∀ m : ℤ, iv.start = (m : ℚ) * iv.step →
      to_num rep (natToBits b i) = some (iv.start + (i : ℚ) * iv.step)) := by
  obtain ⟨hval, hlen, hrep⟩ := initializeEncodings_ok (binaryCode b) iv rep h
  have hstep := step_ne_zero_of_valid iv hval
  have hli := lastIdx?_binaryCode b i hi
  have hmain : to_num rep (natToBits b i) =
      some (((pyInt (iv.start / iv.step) + (i : ℤ) : ℤ) : ℚ) * iv.step) := by
    rw [hrep]
    unfold to_num
    rw [lookupRep_mkRep_last _ _ _ _ _ i hli]
    congr 1
    push_cast
    ring
  refine ⟨hmain, ?_⟩
  intro m hm
  have hq : iv.start / iv.step = (m : ℚ) := by
    rw [hm]
    field_simp
  rw [hmain, hq, pyInt_intCast]
  congr 1
  rw [hm]
  push_cast
  ring

lemma binaryCode_one : binaryCode 1 = [[false], [true]] := by decide

lemma table01 :
    initializeEncodings [[false], [true]] (⟨0, 1, 1⟩ : Interval) =
      .ok [([false], 0), ([true], 1)] := by
  have hval : isValidInterval ⟨0, 1, 1⟩ := by
    unfold isValidInterval
    norm_num
  have hnp : numPoints ⟨0, 1, 1⟩ = 2 := by
    unfold numPoints
    rw [show |((⟨0, 1, 1⟩ : Interval).stop - (⟨0, 1, 1⟩ : Interval).start) /
        (⟨0, 1, 1⟩ : Interval).step| + 1 = ((2 : ℤ) : ℚ) by norm_num,
      pyRound_intCast]
  have hpi : pyInt ((⟨0, 1, 1⟩ : Interval).start / (⟨0, 1, 1⟩ : Interval).step)
      = 0 := by
    rw [show (⟨0, 1, 1⟩ : Interval).start / (⟨0, 1, 1⟩ : Interval).step =
        ((0 : ℤ) : ℚ) by norm_num, pyInt_intCast]
  unfold initializeEncodings
  rw [if_pos hval, if_pos (by rw [hnp]; norm_num), hpi]
  norm_num [mkRep, updInsert]

theorem binary_rep_ascending_witness :
    generateBinaryRepresentation ⟨0, 1, 1⟩ 1 = .ok [([false], 0), ([true], 1)] ∧
    1 < 2 ^ 1 ∧
    to_num [([false], (0 : ℚ)), ([true], 1)] (natToBits 1 1) =
      some (((pyInt ((⟨0, 1, 1⟩ : Interval).start /
        (⟨0, 1, 1⟩ : Interval).step) + (1 : ℤ) : ℤ) : ℚ) *
        (⟨0, 1, 1⟩ : Interval).step) := by
  have hgen : generateBinaryRepresentation ⟨0, 1, 1⟩ 1 =
      .ok [([false], 0), ([true], 1)] := by
    unfold generateBinaryRepresentation
    rw [binaryCode_one]
    exact table01
  exact ⟨hgen, by norm_num,
    (binary_rep_ascending ⟨0, 1, 1⟩ 1 [([false], 0), ([true], 1)] 1 hgen
      (by norm_num)).1⟩

/-- C9 counterexample: for the valid interval `(1, 2, 0.3)` the binary
table's first bitstring `00` decodes to `int(1/0.3)*0.3 = 0.9`, not to
`start = 1`: the table's points are not `start, start+step, …`. -/
theorem binary_rep_first_point_not_start :
    isValidInterval iv13 ∧
    generateBinaryRepresentation iv13 2 = .ok rep13 ∧
    to_num rep13 [false, false] = some (9 / 10) ∧
    to_num rep13 [false, false] ≠ some iv13.start := by
  have hval : isValidInterval iv13 := by
    unfold isValidInterval iv13
    norm_num
  have hnp : numPoints iv13 = 4 := by
    unfold numPoints
    rw [show ((iv13).stop - (iv13).start) / (iv13).step = (10 : ℚ) / 3 by
      unfold iv13; norm_num]
    rw [abs_of_pos (show (0 : ℚ) < 10 / 3 by norm_num)]
    rw [show (10 : ℚ) / 3 + 1 = 13 / 3 by norm_num]
    unfold pyRound
    rw [show ⌊(13 : ℚ) / 3⌋ = 4 by norm_num]
    rw [if_pos (by norm_num)]
  have hpi : pyInt ((iv13).start / (iv13).step) = 3 := by
    unfold pyInt
    rw [show (iv13).start / (iv13).step = (10 : ℚ) / 3 by unfold iv13; norm_num]
    rw [if_pos (by norm_num), show ⌊(10 : ℚ) / 3⌋ = 3 by norm_num]
  have hbc : binaryCode 2 = [[false, false], [false, true],
      [true, false], [true, true]] := by decide
  have hgen : generateBinaryRepresentation iv13 2 = .ok rep13 := by
    unfold generateBinaryRepresentation initializeEncodings
    rw [hbc, if_pos hval, if_pos (by rw [hnp]; norm_num), hpi]
    unfold iv13 rep13
    norm_num [mkRep, updInsert]
  have hto : to_num rep13 [false, false] = some (9 / 10) := rfl
  refine ⟨hval, hgen, hto, ?_⟩
  rw [hto]
  intro hc
  have h9 : (9 / 10 : ℚ) = iv13.start := Option.some.inj hc
  rw [show iv13.start = 1 from rfl] at h9
  norm_num at h9

/-! ### C10: error conditions of the encoding-table constructor -/

/-- C10: `initializeEncodings` raises the invalid-interval error exactly
when the interval is malformed (`start = end`, or the step's sign
disagrees with the direction from `start` to `end`); for a valid interval
it raises the size-mismatch error exactly when the encoding's cardinality
differs from `round(|end-start|/step) + 1`; and decoding a bitstring
absent from a built table yields the key error (`none`). -/
theorem initializeEncodings_error_conditions {α : Type} [DecidableEq α]
    (enc : List α) (iv : Interval) (s : α) (rep : List (α × ℚ)) :
    (initializeEncodings enc iv = .error .invalidInterval ↔
      ¬ isValidInterval iv) ∧
    (¬ isValidInterval iv ↔ (iv.start = iv.stop ∨
      (iv.start < iv.stop ∧ iv.step ≤ 0) ∨
      (iv.stop < iv.start ∧ 0 ≤ iv.step))) ∧
    (isValidInterval iv → (initializeEncodings enc iv = .error .sizeMismatch ↔
      (enc.length : ℤ) ≠ numPoints iv)) ∧
    (initializeEncodings enc iv = .ok rep →
      (to_num rep s = none ↔ ∀ p ∈ rep, p.1 ≠ s)) := by
  refine ⟨?_, ?_, ?_, ?_⟩
  · unfold initializeEncodings
    by_cases h1 : isValidInterval iv
    · rw [if_pos h1]
      by_cases h2 : (enc.length : ℤ) = numPoints iv
      · rw [if_pos h2]; simp [h1]
      · rw [if_neg h2]; simp [h1]
    · rw [if_neg h1]; simp [h1]
  · unfold isValidInterval
    constructor
    · intro h
      by_cases h1 : iv.start < iv.stop
      · refine Or.inr (Or.inl ⟨h1, ?_⟩)
        by_contra hc
        push_neg at hc
        exact h (Or.inl ⟨h1, hc⟩)
      · by_cases h2 : iv.stop < iv.start
        · refine Or.inr (Or.inr ⟨h2, ?_⟩)
          by_contra hc
          push_neg at hc
          exact h (Or.inr ⟨h2, hc⟩)
        · exact Or.inl (le_antisymm (not_lt.1 h2) (not_lt.1 h1))
    · intro h hv
      rcases hv with ⟨hlt, hstep⟩ | ⟨hlt, hstep⟩ <;>
        rcases h with h | ⟨h1, h2⟩ | ⟨h1, h2⟩ <;> linarith
  · intro h1
    unfold initializeEncodings
    rw [if_pos h1]
    by_cases h2 : (enc.length : ℤ) = numPoints iv
    · rw [if_pos h2]; simp [h2]
    · rw [if_neg h2]; simp [h2]
  · intro _
    unfold to_num
    exact lookupRep_eq_none_iff rep s

theorem initializeEncodings_error_conditions_witness :
    initializeEncodings ([[true]] : List (List Bool)) (⟨0, 0, 1⟩ : Interval) =
      .error .invalidInterval :=
  (initializeEncodings_error_conditions [[true]] ⟨0, 0, 1⟩ [true] []).1.mpr
    (by unfold isValidInterval; norm_num)

/-! ### C6: tournament selection -/

lemma cmpQ_refl (isMin : Bool) (a : ℚ) : cmpQ isMin a a := by
  cases isMin <;> simp [cmpQ]

lemma cmpQ_trans (isMin : Bool) (a b c : ℚ) (h1 : cmpQ isMin a b)
    (h2 : cmpQ isMin b c) : cmpQ isMin a c := by
  cases isMin <;> simp [cmpQ] at h1 h2 ⊢ <;> linarith

lemma selCond_iff (isMin : Bool) (a b : ℚ) :
    selCond isMin a b = true ↔ cmpQ isMin a b := by
  cases isMin <;> simp [selCond, cmpQ]

lemma selCond_false_cmpQ (isMin : Bool) (a b : ℚ)
    (h : ¬ selCond isMin a b = true) : cmpQ isMin b a := by
  cases isMin <;> simp [selCond] at h <;> simp [cmpQ] <;> linarith

lemma get_cons_eraseIdx_perm :
    ∀ (l : List Chromosome) (i : ℕ) (h : i < l.length),
      (l.get ⟨i, h⟩ :: l.eraseIdx i).Perm l := by
  intro l
  induction l with
  | nil => intro i h; simp at h
  | cons a rest ih =>
    intro i h
    match i with
    | 0 => exact List.Perm.refl _
    | j + 1 =>
      have hj : j < rest.length := Nat.lt_of_succ_lt_succ h
      have hperm := ih j hj
      have h1 : ((a :: rest).get ⟨j + 1, h⟩ :: (a :: rest).eraseIdx (j + 1)) =
          rest.get ⟨j, hj⟩ :: a :: rest.eraseIdx j := rfl
      rw [h1]
      exact (List.Perm.swap a (rest.get ⟨j, hj⟩) (rest.eraseIdx j)).trans
        (hperm.cons a)

lemma sampleAux_spec (idxs : ℕ → ℕ) :
    ∀ (k i : ℕ) (popcopy : List Chromosome), k ≤ popcopy.length →
      (sampleAux idxs i k popcopy).1.length = k ∧
      ((sampleAux idxs i k popcopy).1 ++ (sampleAux idxs i k popcopy).2).Perm
        popcopy := by
  intro k
  induction k with
  | zero => intro i popcopy _; exact ⟨rfl, by simp [sampleAux]⟩
  | succ k ih =>
    intro i popcopy hk
    have hpos : 0 < popcopy.length := Nat.lt_of_lt_of_le (Nat.succ_pos k) hk
    have hind : idxs i % popcopy.length < popcopy.length := Nat.mod_lt _ hpos
    have hgetD : popcopy.getD (idxs i % popcopy.length) default =
        popcopy.get ⟨idxs i % popcopy.length, hind⟩ := by
      rw [List.getD_eq_getElem?_getD, List.getElem?_eq_getElem hind]
      rfl
    have herase : k ≤ (popcopy.eraseIdx (idxs i % popcopy.length)).length := by
      rw [List.length_eraseIdx_of_lt hind]
      omega
    obtain ⟨ihlen, ihperm⟩ :=
      ih (i + 1) (popcopy.eraseIdx (idxs i % popcopy.length)) herase
    rw [sampleAux]
    constructor
    · simpa using ihlen
    · have hstep1 : ((popcopy.getD (idxs i % popcopy.length) default ::
          (sampleAux idxs (i + 1) k
            (popcopy.eraseIdx (idxs i % popcopy.length))).1) ++
          (sampleAux idxs (i + 1) k
            (popcopy.eraseIdx (idxs i % popcopy.length))).2).Perm
          (popcopy.getD (idxs i % popcopy.length) default ::
            popcopy.eraseIdx (idxs i % popcopy.length)) := ihperm.cons _
      have hstep2 : (popcopy.getD (idxs i % popcopy.length) default ::
          popcopy.eraseIdx (idxs i % popcopy.length)).Perm popcopy := by
        rw [hgetD]
        exact get_cons_eraseIdx_perm popcopy _ hind
      exact hstep1.trans hstep2


lemma scanBest_spec (isMin : Bool) (fmap : Chromosome → ℚ) :
    ∀ (l : List Chromosome) (m : Chromosome),
      scanBest isMin fmap l m ∈ m :: l ∧
      cmpQ isMin (fmap (scanBest isMin fmap l m)) (fmap m) ∧
      ∀ x ∈ l, cmpQ isMin (fmap (scanBest isMin fmap l m)) (fmap x) := by
  intro l
  induction l with
  | nil =>
    intro m
    refine ⟨List.mem_singleton.2 rfl, by rw [scanBest]; exact cmpQ_refl _ _, ?_⟩
    intro x hx
    simp at hx
  | cons c rest ih =>
    intro m
    rw [scanBest]
    by_cases hsel : selCond isMin (fmap c) (fmap m) = true
    · rw [if_pos hsel]
      obtain ⟨ihmem, ihc, ihall⟩ := ih c
      have hcm : cmpQ isMin (fmap c) (fmap m) := (selCond_iff _ _ _).1 hsel
      refine ⟨?_, ?_, ?_⟩
      · rcases List.mem_cons.1 ihmem with h | h
        · exact List.mem_cons.2 (Or.inr (List.mem_cons.2 (Or.inl h)))
        · exact List.mem_cons.2 (Or.inr (List.mem_cons.2 (Or.inr h)))
      · exact cmpQ_trans _ _ _ _ ihc hcm
      · intro x hx
        rcases List.mem_cons.1 hx with h | h
        · rw [h]; exact ihc
        · exact ihall x h
    · rw [if_neg hsel]
      obtain ⟨ihmem, ihm, ihall⟩ := ih m
      have hmc : cmpQ isMin (fmap m) (fmap c) := selCond_false_cmpQ _ _ _ hsel
      refine ⟨?_, ihm, ?_⟩
      · rcases List.mem_cons.1 ihmem with h | h
        · exact List.mem_cons.2 (Or.inl h)
        · exact List.mem_cons.2 (Or.inr (List.mem_cons.2 (Or.inr h)))
      · intro x hx
        rcases List.mem_cons.1 hx with h | h
        · rw [h]
          exact cmpQ_trans _ _ _ _ ihm hmc
        · exact ihall x h

/-- C6 amended: for `0 < k ≤ |pop|`, `tournament_selection` samples `k`
individuals without replacement (the sample is a sub-permutation of the
population of size exactly `k`) and returns a member of the sample whose
raw fitness is at least as fit (per the min/max key) as every sampled
individual — ties are broken in favor of the LAST-encountered individual,
not the first; with `k = |pop|` and a strictly best individual it
deterministically returns that individual; for `k` out of range it fails
with the invalid-tournament-size error. -/
theorem tournament_selection_spec (pop : List Chromosome) (k : ℕ)
    (fmap : Chromosome → ℚ) (isMin : Bool) (idxs : ℕ → ℕ) :
    (¬(0 < k ∧ k ≤ pop.length) →
      tournament_selection pop k fmap isMin idxs = none) ∧
    (0 < k ∧ k ≤ pop.length → ∃ c,
      tournament_selection pop k fmap isMin idxs = some c ∧
      (sampleK pop k idxs).length = k ∧
      (sampleK pop k idxs).Subperm pop ∧
      c ∈ sampleK pop k idxs ∧
      ∀ x ∈ sampleK pop k idxs, cmpQ isMin (fmap c) (fmap x)) ∧
    (k = pop.length → 0 < k → ∀ b ∈ pop,
      (∀ x ∈ pop, x ≠ b → sCmpQ isMin (fmap b) (fmap x)) →
      tournament_selection pop k fmap isMin idxs = some b) := by
  have hmainlem : 0 < k → k ≤ pop.length → ∃ c,
      tournament_selection pop k fmap isMin idxs = some c ∧
      (sampleK pop k idxs).length = k ∧
      (sampleK pop k idxs).Subperm pop ∧
      c ∈ sampleK pop k idxs ∧
      ∀ x ∈ sampleK pop k idxs, cmpQ isMin (fmap c) (fmap x) := by
    intro hk1 hk2
    obtain ⟨hlen, hperm⟩ := sampleAux_spec idxs k 0 pop hk2
    have hsub : (sampleK pop k idxs).Subperm pop := by
      have h1 : List.Sublist (sampleAux idxs 0 k pop).1
          ((sampleAux idxs 0 k pop).1 ++ (sampleAux idxs 0 k pop).2) :=
        List.sublist_append_left _ _
      exact h1.subperm.trans hperm.subperm
    have hlenK : (sampleK pop k idxs).length = k := hlen
    rcases hs : sampleK pop k idxs with _ | ⟨m, rest⟩
    · exfalso
      rw [hs] at hlenK
      simp at hlenK
      omega
    · rw [hs] at hlenK hsub
      obtain ⟨hmem, _, hall⟩ := scanBest_spec isMin fmap (m :: rest) m
      refine ⟨scanBest isMin fmap (m :: rest) m, ?_, hlenK, hsub, ?_, ?_⟩
      · unfold tournament_selection
        rw [if_pos ⟨hk1, hk2⟩]
        rw [show sampleK pop k idxs = m :: rest from hs]
      · rcases List.mem_cons.1 hmem with h | h
        · exact List.mem_cons.2 (Or.inl h)
        · exact h
      · exact hall
  refine ⟨?_, fun hk => hmainlem hk.1 hk.2, ?_⟩
  · intro hk
    unfold tournament_selection
    rw [if_neg hk]
  · intro hkl hk0 b hb hbest
    obtain ⟨c, hts, hlen, hsub, hcmem, hcall⟩ :=
      hmainlem hk0 (le_of_eq hkl)
    have hperm : (sampleK pop k idxs).Perm pop := by
      refine hsub.perm_of_length_le ?_
      rw [hlen, hkl]
    have hbmem : b ∈ sampleK pop k idxs := hperm.mem_iff.2 hb
    have hcpop : c ∈ pop := hperm.mem_iff.1 hcmem
    by_cases hcb : c = b
    · rw [hts, hcb]
    · exfalso
      have h1 : sCmpQ isMin (fmap b) (fmap c) := hbest c hcpop hcb
      have h2 : cmpQ isMin (fmap c) (fmap b) := hcall b hbmem
      cases isMin <;> simp [sCmpQ, cmpQ] at h1 h2 <;> linarith

theorem tournament_selection_spec_witness :
    (0 < 1 ∧ 1 ≤ popAB.length) ∧ ∃ c,
      tournament_selection popAB 1 fmapConst true (fun _ => 0) = some c ∧
      (sampleK popAB 1 (fun _ => 0)).length = 1 ∧
      (sampleK popAB 1 (fun _ => 0)).Subperm popAB ∧
      c ∈ sampleK popAB 1 (fun _ => 0) ∧
      ∀ x ∈ sampleK popAB 1 (fun _ => 0), cmpQ true (fmapConst c) (fmapConst x) :=
  ⟨⟨by norm_num, by norm_num [popAB]⟩,
    (tournament_selection_spec popAB 1 fmapConst true (fun _ => 0)).2.1
      ⟨by norm_num, by norm_num [popAB]⟩⟩

/-- C6 counterexample: with two equally fit individuals and `k = 2`, the
scan `if key(fmap[chrom], fmap[most_fit]) == fmap[chrom]` replaces the
running best on ties, so the LAST-encountered individual is returned, not
the first-encountered one as claimed. -/
theorem tournament_tie_last_encountered :
    sampleK popAB 2 (fun _ => 0) = [⟨0, [false]⟩, ⟨1, [true]⟩] ∧
    fmapConst ⟨0, [false]⟩ = fmapConst ⟨1, [true]⟩ ∧
    tournament_selection popAB 2 fmapConst true (fun _ => 0) =
      some ⟨1, [true]⟩ ∧
    (⟨1, [true]⟩ : Chromosome) ≠ ⟨0, [false]⟩ := by
  refine ⟨by decide, rfl, ?_, by decide⟩
  decide

/-! ### C5: evaluation-budget accounting in the reproduction step -/

/-- C5 counterexample: crossover at cut point `0` copies each parent's
bitstring into a fresh child object; both children are value-identical to
a parent, yet `EVALS` is incremented twice, because `child != parent`
compares object identities, not bitstrings. -/
theorem budget_counts_value_identical_children :
    (pairStep cfgOne oracleCross0 popAB 2).d = 2 ∧
    (pairStep cfgOne oracleCross0 popAB 2).c1.vec =
      (pick popAB oracleCross0.sel2).vec ∧
    (pairStep cfgOne oracleCross0 popAB 2).c2.vec =
      (pick popAB oracleCross0.sel1).vec := by
  decide

lemma pairStep_d_eq (cfg : GAConfig) (o : Oracle)
    (pop : List Chromosome) (nid : ℕ)
    (h1 : (pick pop o.sel1).oid < nid) (h2 : (pick pop o.sel2).oid < nid) :
    (pairStep cfg o pop nid).d =
      (if o.uCross < cfg.crossrate ∨ o.uMut1 < cfg.mutrate then 1 else 0) +
      (if o.uCross < cfg.crossrate ∨ o.uMut2 < cfg.mutrate then 1 else 0) := by
  by_cases hc : o.uCross < cfg.crossrate <;>
    by_cases hm1 : o.uMut1 < cfg.mutrate <;>
    by_cases hm2 : o.uMut2 < cfg.mutrate <;>
    simp only [pairStep, hc, hm1, hm2, if_true, if_false, ite_true, ite_false,
      or_true, true_or, or_self, or_false, false_or, pyNe] <;>
    simp only [Bool.and_eq_true, decide_eq_true_eq] <;>
    split_ifs <;> omega

/-- C5 amended: in each reproduction iteration the counter is incremented
exactly once for each child that is a freshly created object — i.e. one
that underwent crossover or mutation — regardless of its bitstring, and is
not incremented for a cloned pass-through child (the parent object
itself).  The hypotheses say the parents' identities predate the fresh
identity counter, as holds throughout a run. -/
theorem pairStep_evals_increment (cfg : GAConfig) (o : Oracle)
    (pop : List Chromosome) (nid : ℕ)
    (h1 : (pick pop o.sel1).oid < nid) (h2 : (pick pop o.sel2).oid < nid) :
    (pairStep cfg o pop nid).d =
      (if o.uCross < cfg.crossrate ∨ o.uMut1 < cfg.mutrate then 1 else 0) +
      (if o.uCross < cfg.crossrate ∨ o.uMut2 < cfg.mutrate then 1 else 0) :=
  pairStep_d_eq cfg o pop nid h1 h2

theorem pairStep_evals_increment_witness :
    ((pick popAB oracleCross0.sel1).oid < 2 ∧
      (pick popAB oracleCross0.sel2).oid < 2) ∧
    (pairStep cfgOne oracleCross0 popAB 2).d =
      (if oracleCross0.uCross < cfgOne.crossrate ∨
          oracleCross0.uMut1 < cfgOne.mutrate then 1 else 0) +
      (if oracleCross0.uCross < cfgOne.crossrate ∨
          oracleCross0.uMut2 < cfgOne.mutrate then 1 else 0) :=
  ⟨⟨by decide, by decide⟩,
    pairStep_evals_increment cfgOne oracleCross0 popAB 2 (by decide) (by decide)⟩

/-! ### C4: elitist replacement -/

lemma better_true_cmpQ (isMin : Bool) (a b : ℚ) (h : better isMin a b = true) :
    cmpQ isMin a b := by
  cases isMin <;> simp [better] at h <;> simp [cmpQ] <;> linarith

lemma better_false_cmpQ (isMin : Bool) (a b : ℚ)
    (h : ¬ better isMin a b = true) : cmpQ isMin b a := by
  cases isMin <;> simp [better] at h <;> simp [cmpQ] <;> linarith

lemma bestIn_spec (fit : List Bool → ℚ) (isMin : Bool) :
    ∀ (l : List Chromosome) (m : Chromosome),
      bestIn fit isMin l m ∈ m :: l ∧
      cmpQ isMin (fit (bestIn fit isMin l m).vec) (fit m.vec) ∧
      ∀ x ∈ l, cmpQ isMin (fit (bestIn fit isMin l m).vec) (fit x.vec) := by
  intro l
  induction l with
  | nil =>
    intro m
    refine ⟨List.mem_singleton.2 rfl, by rw [bestIn]; exact cmpQ_refl _ _, ?_⟩
    intro x hx
    simp at hx
  | cons c rest ih =>
    intro m
    rw [bestIn]
    by_cases hsel : better isMin (fit c.vec) (fit m.vec) = true
    · rw [if_pos hsel]
      obtain ⟨ihmem, ihc, ihall⟩ := ih c
      have hcm := better_true_cmpQ isMin _ _ hsel
      refine ⟨?_, cmpQ_trans _ _ _ _ ihc hcm, ?_⟩
      · rcases List.mem_cons.1 ihmem with h | h
        · exact List.mem_cons.2 (Or.inr (List.mem_cons.2 (Or.inl h)))
        · exact List.mem_cons.2 (Or.inr (List.mem_cons.2 (Or.inr h)))
      · intro x hx
        rcases List.mem_cons.1 hx with h | h
        · rw [h]; exact ihc
        · exact ihall x h
    · rw [if_neg hsel]
      obtain ⟨ihmem, ihm, ihall⟩ := ih m
      have hmc := better_false_cmpQ isMin _ _ hsel
      refine ⟨?_, ihm, ?_⟩
      · rcases List.mem_cons.1 ihmem with h | h
        · exact List.mem_cons.2 (Or.inl h)
        · exact List.mem_cons.2 (Or.inr (List.mem_cons.2 (Or.inr h)))
      · intro x hx
        rcases List.mem_cons.1 hx with h | h
        · rw [h]
          exact cmpQ_trans _ _ _ _ ihm hmc
        · exact ihall x h

lemma bestChrom_spec (fit : List Bool → ℚ) (isMin : Bool)
    (pop : List Chromosome) (hpop : pop ≠ []) :
    bestChrom fit isMin pop ∈ pop ∧
    ∀ x ∈ dedupOid pop, cmpQ isMin (fit (bestChrom fit isMin pop).vec)
      (fit x.vec) := by
  rcases hp : pop with _ | ⟨c, rest⟩
  · exact absurd hp hpop
  have hdd : dedupOid (c :: rest) = c :: dedupOidAux [c.oid] rest := by
    unfold dedupOid
    rw [dedupOidAux, if_neg (by simp)]
  unfold bestChrom
  rw [hdd]
  obtain ⟨hmem, hc, hall⟩ :=
    bestIn_spec fit isMin (dedupOidAux [c.oid] rest) c
  constructor
  · have hsub := dedupOid_subset (c :: rest)
    rw [hdd] at hsub
    exact hsub hmem
  · intro x hx
    rcases List.mem_cons.1 hx with h | h
    · rw [h]; exact hc
    · exact hall x h

/-- C4: after every elitist replacement step the fittest chromosome of the
previous generation's fitness map is present, by bitstring value, in the
new population, and the new population's size is exactly `popsize` or
`popsize + 1`.  Moreover that chromosome belongs to the previous
population and its raw fitness is at least as fit (per the min/max key) as
every member's.  The identity hypotheses say that equal object identities
denote the same object, as holds in a Python runtime. -/
theorem elitist_replacement_invariant (fit : List Bool → ℚ) (isMin : Bool)
    (pop children : List Chromosome) (psize : ℕ)
    (hpop : pop ≠ [])
    (hlen : children.length = psize)
    (hwfpop : ∀ a ∈ pop, ∀ b ∈ pop, a.oid = b.oid → a = b)
    (hwfc : ∀ c ∈ children, c.oid = (bestChrom fit isMin pop).oid →
      c = bestChrom fit isMin pop) :
    (∃ c ∈ elitistReplace children (bestChrom fit isMin pop),
      c.vec = (bestChrom fit isMin pop).vec) ∧
    ((elitistReplace children (bestChrom fit isMin pop)).length = psize ∨
      (elitistReplace children (bestChrom fit isMin pop)).length = psize + 1) ∧
    bestChrom fit isMin pop ∈ pop ∧
    ∀ x ∈ pop, cmpQ isMin (fit (bestChrom fit isMin pop).vec) (fit x.vec) := by
  obtain ⟨hbmem, hbopt⟩ := bestChrom_spec fit isMin pop hpop
  have hoptall : ∀ x ∈ pop, cmpQ isMin (fit (bestChrom fit isMin pop).vec)
      (fit x.vec) := by
    intro x hx
    obtain ⟨d, hd, hdo⟩ := dedupOid_oid_mem pop x hx
    have hdx : d = x := hwfpop d (dedupOid_subset pop hd) x hx hdo
    rw [← hdx]
    exact hbopt d hd
  refine ⟨?_, ?_, hbmem, hoptall⟩
  · unfold elitistReplace
    by_cases hany : (children.any fun c =>
        decide (c.oid = (bestChrom fit isMin pop).oid)) = true
    · rw [if_pos hany]
      obtain ⟨c, hcmem, hcoid⟩ := List.any_eq_true.1 hany
      refine ⟨c, hcmem, ?_⟩
      rw [hwfc c hcmem (of_decide_eq_true hcoid)]
    · rw [if_neg hany]
      exact ⟨bestChrom fit isMin pop,
        List.mem_append.2 (Or.inr (List.mem_singleton.2 rfl)), rfl⟩
  · unfold elitistReplace
    by_cases hany : (children.any fun c =>
        decide (c.oid = (bestChrom fit isMin pop).oid)) = true
    · rw [if_pos hany]
      exact Or.inl hlen
    · rw [if_neg hany]
      rw [List.length_append, hlen]
      exact Or.inr rfl

theorem elitist_replacement_invariant_witness :
    (popAB ≠ [] ∧ popAB.length = 2) ∧
    (∃ c ∈ elitistReplace popAB (bestChrom fitConst true popAB),
      c.vec = (bestChrom fitConst true popAB).vec) ∧
    ((elitistReplace popAB (bestChrom fitConst true popAB)).length = 2 ∨
      (elitistReplace popAB (bestChrom fitConst true popAB)).length = 2 + 1) ∧
    bestChrom fitConst true popAB ∈ popAB ∧
    ∀ x ∈ popAB, cmpQ true (fitConst (bestChrom fitConst true popAB).vec)
      (fitConst x.vec) :=
  ⟨⟨by decide, by decide⟩,
    elitist_replacement_invariant fitConst true popAB popAB 2 (by decide)
      (by decide) (by decide) (by decide)⟩

/-! ### C2 and C3: loop termination and the evaluation budget -/

lemma pick_mem (pop : List Chromosome) (hne : pop ≠ []) (n : ℕ) :
    pick pop n ∈ pop := by
  unfold pick
  have hlen : 0 < pop.length := List.length_pos.2 hne
  have hind : n % pop.length < pop.length := Nat.mod_lt _ hlen
  rw [List.getD_eq_getElem?_getD, List.getElem?_eq_getElem hind]
  exact List.getElem_mem hind

lemma elitistReplace_mem (children : List Chromosome) (best x : Chromosome)
    (hx : x ∈ elitistReplace children best) : x ∈ children ∨ x = best := by
  unfold elitistReplace at hx
  by_cases hany : (children.any fun c => decide (c.oid = best.oid)) = true
  · rw [if_pos hany] at hx
    exact Or.inl hx
  · rw [if_neg hany] at hx
    rcases List.mem_append.1 hx with h | h
    · exact Or.inl h
    · exact Or.inr (List.mem_singleton.1 h)

lemma elitistReplace_ne_nil (children : List Chromosome) (best : Chromosome) :
    elitistReplace children best ≠ [] := by
  unfold elitistReplace
  by_cases hany : (children.any fun c => decide (c.oid = best.oid)) = true
  · rw [if_pos hany]
    intro hc
    rw [hc] at hany
    simp at hany
  · rw [if_neg hany]
    simp

lemma pairStep_cfgZero (pop : List Chromosome) (nid : ℕ) :
    (pairStep cfgZero oracleZero pop nid).d = 0 ∧
    (pairStep cfgZero oracleZero pop nid).nid = nid := by
  have hc : ¬ oracleZero.uCross < cfgZero.crossrate := by
    norm_num [oracleZero, cfgZero]
  have hm1 : ¬ oracleZero.uMut1 < cfgZero.mutrate := by
    norm_num [oracleZero, cfgZero]
  have hm2 : ¬ oracleZero.uMut2 < cfgZero.mutrate := by
    norm_num [oracleZero, cfgZero]
  simp [pairStep, hc, hm1, hm2, pyNe]

lemma reproFrom_cfgZero : ∀ (n i nid : ℕ) (pop : List Chromosome),
    (reproFrom cfgZero pop (fun _ => oracleZero) i n nid).2.2 = 0 := by
  intro n
  induction n with
  | zero => intro i nid pop; rfl
  | succ n ih =>
    intro i nid pop
    simp only [reproFrom]
    rw [(pairStep_cfgZero pop nid).1, ih]

lemma genStep_cfgZero_evals (st : GAState) :
    (genStep cfgZero fitConst true (fun _ => oracleZero) st).evals = st.evals := by
  simp only [genStep]
  rw [reproFrom_cfgZero]
  omega

lemma runZero_evals : ∀ n, (runZero n).evals = 2 := by
  intro n
  induction n with
  | zero => rfl
  | succ n ih =>
    have hstep : runZero (n + 1) =
        if (runZero n).evals < EVAL_LIMIT then
          genStep cfgZero fitConst true (fun _ => oracleZero) (runZero n)
        else runZero n := rfl
    rw [hstep]
    by_cases hg : (runZero n).evals < EVAL_LIMIT
    · rw [if_pos hg, genStep_cfgZero_evals, ih]
    · rw [if_neg hg]
      exact ih

/-- C2 counterexample: with mutation rate `0` and crossover rate `0` — a
valid configuration — every child is a pass-through clone, `EVALS` never
increases, and the `while EVALS < EVAL_LIMIT` loop never exits:
`GA_SEARCH` does not terminate. -/
theorem ga_search_nonterminating :
    (0 ≤ cfgZero.mutrate ∧ cfgZero.mutrate ≤ 1 ∧
      0 ≤ cfgZero.crossrate ∧ cfgZero.crossrate ≤ 1 ∧
      0 < cfgZero.popsize ∧ cfgZero.popsize % 2 = 0) ∧
    ¬ gaTerminates cfgZero fitConst true (fun _ _ => oracleZero)
      (mkInit cfgZero fun _ => [false]) := by
  refine ⟨⟨by norm_num [cfgZero], by norm_num [cfgZero], by norm_num [cfgZero],
    by norm_num [cfgZero], by norm_num [cfgZero], by norm_num [cfgZero]⟩, ?_⟩
  rintro ⟨n, hn⟩
  have h3 := runZero_evals n
  unfold runZero at h3
  rw [h3] at hn
  exact absurd hn (by decide)

/-- C2 amended: whenever every generation executed before the budget is
reached increases the evaluation counter by at least one (as crossover
rate `1` guarantees: crossover always creates fresh child objects), the
`while EVALS < EVAL_LIMIT` loop terminates: after some number of
generations the counter reaches the budget. -/
theorem ga_terminates_of_progress (cfg : GAConfig) (fit : List Bool → ℚ)
    (isMin : Bool) (og : ℕ → ℕ → Oracle) (init : GAState)
    (h : ∀ n, (runGens cfg fit isMin og init n).evals < EVAL_LIMIT →
      (runGens cfg fit isMin og init n).evals + 1 ≤
        (runGens cfg fit isMin og init (n + 1)).evals) :
    gaTerminates cfg fit isMin og init := by
  have key : ∀ n, EVAL_LIMIT ≤ (runGens cfg fit isMin og init n).evals ∨
      n ≤ (runGens cfg fit isMin og init n).evals := by
    intro n
    induction n with
    | zero => exact Or.inr (Nat.zero_le _)
    | succ n ih =>
      by_cases hg : (runGens cfg fit isMin og init n).evals < EVAL_LIMIT
      · have hs := h n hg
        rcases ih with h1 | h1
        · exact absurd h1 (Nat.not_le.2 hg)
        · exact Or.inr (by omega)
      · have he : runGens cfg fit isMin og init (n + 1) =
            runGens cfg fit isMin og init n := by
          show (if (runGens cfg fit isMin og init n).evals < EVAL_LIMIT then
              genStep cfg fit isMin (og n) (runGens cfg fit isMin og init n)
            else runGens cfg fit isMin og init n) =
            runGens cfg fit isMin og init n
          rw [if_neg hg]
        rw [he]
        exact Or.inl (Nat.le_of_not_lt hg)
  rcases key EVAL_LIMIT with h1 | h1
  · exact ⟨EVAL_LIMIT, h1⟩
  · exact ⟨EVAL_LIMIT, h1⟩

lemma pairStep_cfgOne (pop : List Chromosome) (nid : ℕ) :
    (pairStep cfgOne oracleCross0 pop nid).c1.oid = nid ∧
    (pairStep cfgOne oracleCross0 pop nid).c2.oid = nid + 1 ∧
    (pairStep cfgOne oracleCross0 pop nid).nid = nid + 2 := by
  have hc : oracleCross0.uCross < cfgOne.crossrate := by
    norm_num [oracleCross0, cfgOne]
  have hm1 : ¬ oracleCross0.uMut1 < cfgOne.mutrate := by
    norm_num [oracleCross0, cfgOne]
  have hm2 : ¬ oracleCross0.uMut2 < cfgOne.mutrate := by
    norm_num [oracleCross0, cfgOne]
  simp [pairStep, hc, hm1, hm2]

lemma pairStep_cfgOne_d (pop : List Chromosome) (nid : ℕ)
    (h1 : (pick pop oracleCross0.sel1).oid < nid)
    (h2 : (pick pop oracleCross0.sel2).oid < nid) :
    (pairStep cfgOne oracleCross0 pop nid).d = 2 := by
  rw [pairStep_d_eq cfgOne oracleCross0 pop nid h1 h2]
  have hc : oracleCross0.uCross < cfgOne.crossrate := by
    norm_num [oracleCross0, cfgOne]
  rw [if_pos (Or.inl hc), if_pos (Or.inl hc)]

lemma reproFrom_cfgOne (pop : List Chromosome) (nid : ℕ) :
    reproFrom cfgOne pop (fun _ => oracleCross0) 0 1 nid =
      ([(pairStep cfgOne oracleCross0 pop nid).c1,
        (pairStep cfgOne oracleCross0 pop nid).c2],
       (pairStep cfgOne oracleCross0 pop nid).nid,
       (pairStep cfgOne oracleCross0 pop nid).d + 0) := rfl

lemma genStep_cfgOne_evals (st : GAState)
    (h1 : (pick st.pop oracleCross0.sel1).oid < st.nextOid)
    (h2 : (pick st.pop oracleCross0.sel2).oid < st.nextOid) :
    (genStep cfgOne fitConst true (fun _ => oracleCross0) st).evals =
      st.evals + 2 := by
  simp only [genStep]
  rw [show cfgOne.popsize / 2 = 1 from rfl, reproFrom_cfgOne]
  rw [pairStep_cfgOne_d st.pop st.nextOid h1 h2]

lemma genStep_cfgOne_nextOid (st : GAState) :
    (genStep cfgOne fitConst true (fun _ => oracleCross0) st).nextOid =
      st.nextOid + 2 := by
  simp only [genStep]
  rw [show cfgOne.popsize / 2 = 1 from rfl, reproFrom_cfgOne]
  exact (pairStep_cfgOne st.pop st.nextOid).2.2

lemma genStep_cfgOne_pop (st : GAState) :
    (genStep cfgOne fitConst true (fun _ => oracleCross0) st).pop =
      elitistReplace [(pairStep cfgOne oracleCross0 st.pop st.nextOid).c1,
        (pairStep cfgOne oracleCross0 st.pop st.nextOid).c2]
        (bestChrom fitConst true st.pop) := by
  simp only [genStep]
  rw [show cfgOne.popsize / 2 = 1 from rfl, reproFrom_cfgOne]

lemma runOne_step (n : ℕ) : runOne (n + 1) =
    if (runOne n).evals < EVAL_LIMIT then
      genStep cfgOne fitConst true (fun _ => oracleCross0) (runOne n)
    else runOne n := rfl

lemma runOne_inv : ∀ n, (∀ c ∈ (runOne n).pop, c.oid < (runOne n).nextOid) ∧
    (runOne n).pop ≠ [] := by
  intro n
  induction n with
  | zero => exact ⟨by decide, by decide⟩
  | succ n ih =>
    rw [runOne_step]
    by_cases hg : (runOne n).evals < EVAL_LIMIT
    · rw [if_pos hg]
      obtain ⟨hJ, hne⟩ := ih
      obtain ⟨ho1, ho2, hon⟩ := pairStep_cfgOne (runOne n).pop (runOne n).nextOid
      constructor
      · intro c hc
        rw [genStep_cfgOne_pop] at hc
        rw [genStep_cfgOne_nextOid]
        rcases elitistReplace_mem _ _ _ hc with h | h
        · rcases List.mem_cons.1 h with h2 | h2
          · rw [h2, ho1]
            omega
          · rw [List.mem_singleton.1 h2, ho2]
            omega
        · have hbmem := (bestChrom_spec fitConst true (runOne n).pop hne).1
          have := hJ _ (h ▸ hbmem)
          omega
      · rw [genStep_cfgOne_pop]
        exact elitistReplace_ne_nil _ _
    · rw [if_neg hg]
      exact ih

lemma runOne_progress : ∀ n,
    (runGens cfgOne fitConst true (fun _ _ => oracleCross0)
      (mkInit cfgOne fun _ => [false]) n).evals < EVAL_LIMIT →
    (runGens cfgOne fitConst true (fun _ _ => oracleCross0)
      (mkInit cfgOne fun _ => [false]) n).evals + 1 ≤
    (runGens cfgOne fitConst true (fun _ _ => oracleCross0)
      (mkInit cfgOne fun _ => [false]) (n + 1)).evals := by
  intro n hg
  obtain ⟨hJ, hne⟩ := runOne_inv n
  have hg2 : (runOne n).evals < EVAL_LIMIT := hg
  have hstep : runOne (n + 1) =
      genStep cfgOne fitConst true (fun _ => oracleCross0) (runOne n) := by
    rw [runOne_step, if_pos hg2]
  have hev := genStep_cfgOne_evals (runOne n)
    (hJ _ (pick_mem _ hne _)) (hJ _ (pick_mem _ hne _))
  have hfin : (runOne (n + 1)).evals = (runOne n).evals + 2 := by
    rw [hstep, hev]
  have hfin2 : (runGens cfgOne fitConst true (fun _ _ => oracleCross0)
      (mkInit cfgOne fun _ => [false]) (n + 1)).evals =
      (runGens cfgOne fitConst true (fun _ _ => oracleCross0)
        (mkInit cfgOne fun _ => [false]) n).evals + 2 := hfin
  omega

theorem ga_terminates_of_progress_witness :
    gaTerminates cfgOne fitConst true (fun _ _ => oracleCross0)
      (mkInit cfgOne fun _ => [false]) :=
  ga_terminates_of_progress cfgOne fitConst true (fun _ _ => oracleCross0)
    (mkInit cfgOne fun _ => [false]) runOne_progress

/-- C3 (code bug): for the valid configuration `popsize = 6000`, the
initialization loop records one fitness line per individual with no
budget check, so the completed run (the loop guard is already false, and
the state never changes) has 6000 recorded lines, exceeding the 5000
evaluation budget. -/
theorem run_log_exceeds_budget :
    (mkInit cfgBig fun _ => [false]).lines = 6000 ∧
    ¬ (mkInit cfgBig fun _ => [false]).evals < EVAL_LIMIT ∧
    (∀ n, runGens cfgBig fitConst true (fun _ _ => oracleZero)
      (mkInit cfgBig fun _ => [false]) n = mkInit cfgBig fun _ => [false]) ∧
    EVAL_LIMIT < (mkInit cfgBig fun _ => [false]).lines := by
  refine ⟨rfl, by decide, ?_, by decide⟩
  intro n
  induction n with
  | zero => rfl
  | succ n ih =>
    have hstep : runGens cfgBig fitConst true (fun _ _ => oracleZero)
        (mkInit cfgBig fun _ => [false]) (n + 1) =
        if (runGens cfgBig fitConst true (fun _ _ => oracleZero)
            (mkInit cfgBig fun _ => [false]) n).evals < EVAL_LIMIT then
          genStep cfgBig fitConst true (fun _ => oracleZero)
            (runGens cfgBig fitConst true (fun _ _ => oracleZero)
              (mkInit cfgBig fun _ => [false]) n)
        else runGens cfgBig fitConst true (fun _ _ => oracleZero)
          (mkInit cfgBig fun _ => [false]) n := rfl
    rw [hstep, ih, if_neg (by decide)]

end CompGA
